import Mathlib

/-!
Verification development for the tick-data ingestion/repair pipeline
(mt5-dashboard, `src/database/data/raw/`): the work sharder
(`parallel_patch.chunkify`), the temp-file fold and per-instrument raw
merge (`parallel_patch.merge_hdf5_files`, `merge_instrument_file`), the
integrity scanner (`scanner.scan_hdf5`, `valid_dates`), and the
incremental updater (`batch_update.run_fetch`, `store_tick_data`).
All definitions are shallow embeddings of the Python source.
-/

namespace MT5

/-! ## Calendar model (Python `datetime` semantics, proleptic Gregorian) -/

/-- Gregorian leap-year rule, as in Python `calendar.isleap`. -/
def isLeap (y : Nat) : Bool :=
  (y % 4 == 0 && y % 100 != 0) || (y % 400 == 0)

/-- Number of days in month `m` of year `y` (Python `calendar.monthrange(y, m)[1]`). -/
def daysInMonth (y m : Nat) : Nat :=
  if m == 2 then (if isLeap y then 29 else 28)
  else if m == 4 || m == 6 || m == 9 || m == 11 then 30
  else 31

/-- Number of days in year `y`. -/
def daysInYear (y : Nat) : Nat := if isLeap y then 366 else 365

/-- Days in all years strictly before year `y` (Python `datetime._days_before_year`). -/
def daysBeforeYear (y : Nat) : Nat :=
  365 * (y - 1) + (y - 1) / 4 - (y - 1) / 100 + (y - 1) / 400

/-- Days in year `y` strictly before month `m` (Python `datetime._days_before_month`). -/
def daysBeforeMonth (y : Nat) : Nat → Nat
  | 0 => 0
  | 1 => 0
  | m + 2 => daysBeforeMonth y (m + 1) + daysInMonth y (m + 1)

/-- Proleptic Gregorian ordinal of a calendar date (Python `date.toordinal`):
day 1 is 0001-01-01. -/
def toOrd (y m d : Nat) : Nat := daysBeforeYear y + daysBeforeMonth y m + d

/-- Python `date.weekday()`: Monday = 0 … Sunday = 6, computed from the ordinal. -/
def pyWeekday (y m d : Nat) : Nat := (toOrd y m d + 6) % 7

/-- A calendar date, as decomposed year/month/day. -/
structure YMD where
  y : Nat
  m : Nat
  d : Nat
deriving DecidableEq, Repr

/-- Ordinal of a `YMD`. -/
def YMD.ord (x : YMD) : Nat := toOrd x.y x.m x.d

/-! ## Tick records and HDF5 stores

An HDF5 store is modelled as an association list from string keys
(`/INSTR/yYYYY/mMM/dDD`) to tables of tick rows; pytables keeps at most
one node per key, which the `put`/`get` functions below respect. -/

/-- One tick quote row. -/
structure TickRow where
  timestamp : Nat
  ask_price : Int
  bid_price : Int
  ask_volume : Int
  bid_volume : Int
deriving DecidableEq, Repr

/-- A partition table: the ordered rows stored under one key. -/
abbrev Table := List TickRow

/-- An HDF5 container file: keyed tables, in insertion order. -/
abbrev Store := List (String × Table)

/-- Key membership: `key in store` (pytables `__contains__`). -/
def hasKey (s : Store) (k : String) : Bool := s.any (fun p => p.1 == k)

/-- Lookup `store[key]` as an option (first binding wins; keys are unique in real files). -/
def storeGet (s : Store) (k : String) : Option Table :=
  (s.find? (fun p => p.1 == k)).map (fun p => p.2)

/-- Write `store.put(key, df)` with pandas default `append=False`: replaces the
existing node at `key` in place, or appends a fresh node at the end. -/
def storePut (s : Store) (k : String) (t : Table) : Store :=
  match s with
  | [] => [(k, t)]
  | (k0, t0) :: rest =>
      if k0 == k then (k0, t) :: rest else (k0, t0) :: storePut rest k t

/-! ## WorkSharder: `parallel_patch.chunkify` -/

/-- Append `chunks[k].append(x)` on a list of chunks: append `x` to the chunk at
position `k`, leaving everything else unchanged. -/
def appendAt (chunks : List (List α)) (k : Nat) (x : α) : List (List α) :=
  match chunks, k with
  | [], _ => []
  | c :: cs, 0 => (c ++ [x]) :: cs
  | c :: cs, k + 1 => c :: appendAt cs k x

/-- The remainder loop of `chunkify`:
`for i, item in enumerate(remainder): chunks[i % n].append(item)`,
with `i` starting at `start`. -/
def distRR (chunks : List (List α)) (rem : List α) (start : Nat) : List (List α) :=
  match rem with
  | [] => chunks
  | x :: xs => distRR (appendAt chunks (start % chunks.length) x) xs (start + 1)

/-- Sharder `parallel_patch.chunkify(lst, n)`: `avg = len(lst) // n` items per chunk
contiguously, then the remainder distributed round-robin by index. -/
def chunkify (lst : List α) (n : Nat) : List (List α) :=
  let avg := lst.length / n
  let chunks := (List.range n).map (fun i => (lst.drop (i * avg)).take avg)
  let remainder := lst.drop (n * avg)
  distRR chunks remainder 0

/-! ### Sharder lemmas -/

theorem appendAt_length (chunks : List (List α)) (k : Nat) (x : α) :
    (appendAt chunks k x).length = chunks.length := by
  induction chunks generalizing k with
  | nil => rfl
  | cons c cs ih =>
      cases k with
      | zero => rfl
      | succ k => simp [appendAt, ih]

theorem appendAt_flatten_perm (chunks : List (List α)) (k : Nat) (x : α)
    (hk : k < chunks.length) :
    (appendAt chunks k x).flatten.Perm (chunks.flatten ++ [x]) := by
  induction chunks generalizing k with
  | nil => simp at hk
  | cons c cs ih =>
      cases k with
      | zero =>
          show ((c ++ [x]) :: cs).flatten.Perm ((c :: cs).flatten ++ [x])
          simp only [List.flatten_cons, List.append_assoc]
          exact (@List.perm_append_comm _ [x] cs.flatten).append_left c
      | succ k =>
          simp only [appendAt, List.flatten_cons, List.append_assoc]
          exact (ih k (by simpa using hk)).append_left c

theorem distRR_length (rem : List α) (chunks : List (List α)) (i : Nat) :
    (distRR chunks rem i).length = chunks.length := by
  induction rem generalizing chunks i with
  | nil => rfl
  | cons x xs ih => simp [distRR, ih, appendAt_length]

theorem distRR_flatten_perm (rem : List α) (chunks : List (List α)) (i : Nat)
    (hpos : 0 < chunks.length) :
    (distRR chunks rem i).flatten.Perm (chunks.flatten ++ rem) := by
  induction rem generalizing chunks i with
  | nil => simp [distRR]
  | cons x xs ih =>
      have hk : i % chunks.length < chunks.length := Nat.mod_lt _ hpos
      have h1 := ih (appendAt chunks (i % chunks.length) x) (i + 1)
        (by rw [appendAt_length]; exact hpos)
      have h2 := (appendAt_flatten_perm chunks (i % chunks.length) x hk).append_right xs
      have h3 : (chunks.flatten ++ [x]) ++ xs = chunks.flatten ++ (x :: xs) := by simp
      exact h1.trans (h3 ▸ h2)

theorem distRR_shift (rem : List α) (c : List α) (cs : List (List α)) (i : Nat)
    (hi : 0 < i) (hlen : i + rem.length ≤ cs.length + 1) :
    distRR (c :: cs) rem i = c :: distRR cs rem (i - 1) := by
  induction rem generalizing c cs i with
  | nil => rfl
  | cons x xs ih =>
      obtain ⟨j, rfl⟩ : ∃ j, i = j + 1 := ⟨i - 1, by omega⟩
      have hmod1 : (j + 1) % (c :: cs).length = j + 1 := by
        simp only [List.length_cons]
        exact Nat.mod_eq_of_lt (by simp at hlen ⊢; omega)
      have hmod2 : j % cs.length = j := Nat.mod_eq_of_lt (by simp at hlen ⊢; omega)
      have happ : appendAt (c :: cs) (j + 1) x = c :: appendAt cs j x := rfl
      calc distRR (c :: cs) (x :: xs) (j + 1)
          = distRR (appendAt (c :: cs) (j + 1) x) xs (j + 2) := by
            simp only [distRR, hmod1]
        _ = distRR (c :: appendAt cs j x) xs (j + 2) := by rw [happ]
        _ = c :: distRR (appendAt cs j x) xs (j + 1) := by
            have := ih c (appendAt cs j x) (j + 2) (by omega)
              (by rw [appendAt_length]; simp at hlen ⊢; omega)
            simpa using this
        _ = c :: distRR cs (x :: xs) j := by
            simp only [distRR, hmod2]

theorem distRR_sizes (rem : List α) (chunks : List (List α)) (avg : Nat)
    (hlen : rem.length ≤ chunks.length)
    (hall : ∀ c ∈ chunks, c.length = avg) :
    ∀ c ∈ distRR chunks rem 0, c.length = avg ∨ c.length = avg + 1 := by
  induction rem generalizing chunks with
  | nil =>
      intro c hc
      exact Or.inl (hall c hc)
  | cons x xs ih =>
      match chunks with
      | [] => simp at hlen
      | c0 :: cs =>
          have step : distRR (c0 :: cs) (x :: xs) 0
              = (c0 ++ [x]) :: distRR cs xs 0 := by
            have h1 : distRR (c0 :: cs) (x :: xs) 0
                = distRR ((c0 ++ [x]) :: cs) xs 1 := by
              simp [distRR, appendAt]
            rw [h1, distRR_shift xs (c0 ++ [x]) cs 1 (by omega)
              (by simp at hlen ⊢; omega)]
          rw [step]
          intro c hc
          rcases List.mem_cons.1 hc with rfl | hc
          · right
            have := hall c0 (by simp)
            simp [this]
          · exact ih cs (by simp at hlen ⊢; omega)
              (fun d hd => hall d (by simp [hd])) c hc

theorem chunkify_slices_flatten (n : Nat) (lst : List α) (avg : Nat) :
    ((List.range n).map (fun i => (lst.drop (i * avg)).take avg)).flatten
      = lst.take (n * avg) := by
  induction n with
  | zero => simp
  | succ n ih =>
      rw [List.range_succ, List.map_append, List.flatten_append, ih]
      simp only [List.map_cons, List.map_nil, List.flatten_cons, List.flatten_nil,
        List.append_nil]
      rw [← List.take_add]
      congr 1
      ring

theorem chunkify_slice_length (lst : List α) (n i : Nat) (h1 : 1 ≤ n) (hi : i < n) :
    ((lst.drop (i * (lst.length / n))).take (lst.length / n)).length
      = lst.length / n := by
  have hmul : n * (lst.length / n) ≤ lst.length := by
    rw [Nat.mul_comm]; exact Nat.div_mul_le_self _ _
  have hstep : (i + 1) * (lst.length / n) ≤ n * (lst.length / n) :=
    Nat.mul_le_mul_right _ hi
  have hexp : (i + 1) * (lst.length / n) = i * (lst.length / n) + lst.length / n := by
    ring
  simp only [List.length_take, List.length_drop]
  omega

/-- C3 helper: the remainder the sharder distributes has fewer than `n` items. -/
theorem chunkify_rem_length (lst : List α) (n : Nat) (h : 1 ≤ n) :
    (lst.drop (n * (lst.length / n))).length ≤ n := by
  simp only [List.length_drop]
  have := Nat.div_add_mod lst.length n
  have := Nat.mod_lt lst.length (show 0 < n by omega)
  omega

/-- C3 (Sharding completeness): for every task list `lst` and shard count
`n ≥ 1`, `chunkify lst n` returns exactly `n` lists, whose concatenation is a
permutation of `lst` (so no item is duplicated or dropped), and whose sizes
are all `len / n` or `len / n + 1` — differing by at most one. `chunkify` is a
pure function of `lst` and `n`, hence deterministic. -/
theorem chunkify_complete {α : Type} (lst : List α) (n : Nat) (h : 1 ≤ n) :
    (chunkify lst n).length = n ∧
    (chunkify lst n).flatten.Perm lst ∧
    (∀ c ∈ chunkify lst n,
      c.length = lst.length / n ∨ c.length = lst.length / n + 1) := by
  have hchlen : ((List.range n).map
      (fun i => (lst.drop (i * (lst.length / n))).take (lst.length / n))).length = n := by
    simp
  refine ⟨?_, ?_, ?_⟩
  · rw [chunkify, distRR_length, hchlen]
  · have hperm := distRR_flatten_perm
      (lst.drop (n * (lst.length / n)))
      ((List.range n).map (fun i => (lst.drop (i * (lst.length / n))).take (lst.length / n)))
      0 (by rw [hchlen]; omega)
    rw [chunkify_slices_flatten] at hperm
    rw [chunkify]
    exact hperm.trans (by rw [List.take_append_drop])
  · intro c hc
    refine distRR_sizes _ _ (lst.length / n) ?_ ?_ c hc
    · rw [hchlen]; exact chunkify_rem_length lst n h
    · intro d hd
      obtain ⟨i, hi, rfl⟩ := List.mem_map.1 hd
      exact chunkify_slice_length lst n i h (List.mem_range.1 hi)

/-- C3 witness: the sharder on the 7-item list `[0..6]` with 3 shards. -/
theorem chunkify_complete_witness :
    (chunkify [0, 1, 2, 3, 4, 5, 6] 3).length = 3 ∧
    (chunkify [0, 1, 2, 3, 4, 5, 6] 3).flatten.Perm [0, 1, 2, 3, 4, 5, 6] ∧
    (∀ c ∈ chunkify [0, 1, 2, 3, 4, 5, 6] 3,
      c.length = 7 / 3 ∨ c.length = 7 / 3 + 1) :=
  chunkify_complete [0, 1, 2, 3, 4, 5, 6] 3 (by decide)

/-! ## MergeEngine: `parallel_patch.merge_hdf5_files` and
`parallel_patch.merge_instrument_file`

A temp worker file on disk is either absent (`os.path.exists` false),
present but unreadable (opening or reading it raises), or readable with
some contents. -/

inductive TempFile where
  | missing
  | unreadable
  | ok (contents : Store)
deriving DecidableEq

/-- One iteration of the `merge_hdf5_files` loop body on one temp file:
returns the updated final store and whether the temp file was deleted.
A missing file is skipped before the `try` (never deleted); an unreadable
file merges nothing but is deleted by the `finally`; a readable file has
each of its keys `put` (pandas overwrite semantics) into the final store,
then is deleted. An empty readable file is skipped but still deleted. -/
def processTemp (final : Store) (t : TempFile) : Store × Bool :=
  match t with
  | .missing => (final, false)
  | .unreadable => (final, true)
  | .ok contents =>
      if contents.isEmpty then (final, true)
      else (contents.foldl (fun acc p => storePut acc p.1 p.2) final, true)

/-- Fold stage `parallel_patch.merge_hdf5_files(temp_files, final_file)` over the whole
temp-file list, also recording the per-file deletion outcomes in order. -/
def merge_hdf5_files (temps : List TempFile) (final : Store) : Store × List Bool :=
  temps.foldl
    (fun acc t =>
      let r := processTemp acc.1 t
      (r.1, acc.2 ++ [r.2]))
    (final, [])

/-- The key/table writes a temp file contributes during the fold. -/
def tempWrites (t : TempFile) : List (String × Table) :=
  match t with
  | .missing => []
  | .unreadable => []
  | .ok contents => if contents.isEmpty then [] else contents

/-- Whether the fold deletes a given temp file. -/
def tempDeleted (t : TempFile) : Bool :=
  match t with
  | .missing => false
  | .unreadable => true
  | .ok _ => true

/-- All writes performed by one fold run, in order. -/
def foldWrites (temps : List TempFile) : List (String × Table) :=
  (temps.map tempWrites).flatten

/-- Apply a sequence of overwriting `put`s to a store. -/
def applyPuts (ps : List (String × Table)) (s : Store) : Store :=
  ps.foldl (fun a p => storePut a p.1 p.2) s

/-- The last table written at key `k` by a sequence of puts, if any. -/
def lastWrite (ps : List (String × Table)) (k : String) : Option Table :=
  match ps with
  | [] => none
  | (k0, t0) :: rest =>
      match lastWrite rest k with
      | some t => some t
      | none => if k == k0 then some t0 else none

/-- The per-instrument skip-if-exists fold of
`merge_instrument_file`: for each fetched key, write into the raw store
only when the key is not already present. -/
def mergeFold (fetched : Store) (raw : Store) : Store :=
  fetched.foldl (fun acc p => if hasKey acc p.1 then acc else storePut acc p.1 p.2) raw

/-- Merge-into-raw `parallel_patch.merge_instrument_file`: `none` models a file that does
not exist on disk. If the fetched file is missing, return with the raw
file untouched; if the raw file is missing, log and return without
creating it; otherwise fold fetched into raw with skip-if-exists. -/
def merge_instrument_file (fetched : Option Store) (raw : Option Store) : Option Store :=
  match fetched, raw with
  | none, r => r
  | some _, none => none
  | some f, some r => some (mergeFold f r)

/-! ### Store lemmas -/

theorem storeGet_storePut_self (s : Store) (k : String) (t : Table) :
    storeGet (storePut s k t) k = some t := by
  induction s with
  | nil => simp [storePut, storeGet]
  | cons p rest ih =>
      obtain ⟨k0, t0⟩ := p
      by_cases h : k0 == k
      · have : k0 = k := by simpa using h
        subst this
        simp [storePut, storeGet]
      · simp only [storePut, h]
        simp only [storeGet, List.find?] at ih ⊢
        rw [show (k0 == k) = false by simpa using h]
        exact ih

theorem storeGet_storePut_other (s : Store) (k k' : String) (t : Table)
    (hne : k' ≠ k) :
    storeGet (storePut s k t) k' = storeGet s k' := by
  induction s with
  | nil =>
      have hf : (k == k') = false := by
        simp only [beq_eq_false_iff_ne, ne_eq]
        exact fun hh => hne hh.symm
      simp [storePut, storeGet, List.find?, hf]
  | cons p rest ih =>
      obtain ⟨k0, t0⟩ := p
      by_cases h : k0 == k
      · have hk0 : k0 = k := by simpa using h
        subst hk0
        have : (k0 == k') = false := by
          simp
          exact fun hh => hne hh.symm
        simp [storePut, storeGet, List.find?, this]
      · simp only [storePut, h, if_false]
        simp only [storeGet, List.find?] at ih ⊢
        cases hk0 : (k0 == k') with
        | true => simp
        | false => simpa [hk0] using ih

theorem hasKey_storePut (s : Store) (k0 k : String) (t0 : Table) :
    hasKey (storePut s k0 t0) k = (k0 == k || hasKey s k) := by
  induction s with
  | nil => simp [storePut, hasKey]
  | cons p rest ih =>
      obtain ⟨k1, t1⟩ := p
      by_cases h : k1 == k0
      · have : k1 = k0 := by simpa using h
        subst this
        simp only [storePut, h, if_true]
        cases hk : (k1 == k) with
        | true => simp [hasKey, hk]
        | false => simp [hasKey, hk]
      · simp only [storePut, h, if_false]
        cases hk : (k1 == k) with
        | true => simp [hasKey, hk]
        | false => simp [hasKey, hk] at ih ⊢; exact ih

/-! ### Fold-stage lemmas (C1, C10) -/

theorem applyPuts_append (a b : List (String × Table)) (s : Store) :
    applyPuts (a ++ b) s = applyPuts b (applyPuts a s) := by
  simp [applyPuts, List.foldl_append]

theorem processTemp_fst (final : Store) (t : TempFile) :
    (processTemp final t).1 = applyPuts (tempWrites t) final := by
  cases t with
  | missing => rfl
  | unreadable => rfl
  | ok contents =>
      by_cases h : contents.isEmpty
      · simp [processTemp, tempWrites, h, applyPuts]
      · simp [processTemp, tempWrites, h, applyPuts]

theorem processTemp_snd (final : Store) (t : TempFile) :
    (processTemp final t).2 = tempDeleted t := by
  cases t with
  | missing => rfl
  | unreadable => rfl
  | ok contents =>
      by_cases h : contents.isEmpty <;> simp [processTemp, tempDeleted, h]

theorem merge_hdf5_files_fold (temps : List TempFile) (s : Store) (fl : List Bool) :
    temps.foldl
      (fun acc t =>
        let r := processTemp acc.1 t
        (r.1, acc.2 ++ [r.2]))
      (s, fl)
    = (applyPuts (foldWrites temps) s, fl ++ temps.map tempDeleted) := by
  induction temps generalizing s fl with
  | nil => simp [foldWrites, applyPuts]
  | cons t rest ih =>
      simp only [List.foldl_cons]
      rw [ih]
      simp only [Prod.mk.injEq]
      refine ⟨?_, ?_⟩
      · rw [processTemp_fst]
        simp [foldWrites, applyPuts, List.foldl_append]
      · rw [processTemp_snd]
        simp

theorem merge_hdf5_files_eq (temps : List TempFile) (s : Store) :
    merge_hdf5_files temps s
      = (applyPuts (foldWrites temps) s, temps.map tempDeleted) := by
  rw [merge_hdf5_files, merge_hdf5_files_fold]
  simp

theorem applyPuts_get (ps : List (String × Table)) (s : Store) (k : String) :
    storeGet (applyPuts ps s) k
      = match lastWrite ps k with
        | some t => some t
        | none => storeGet s k := by
  induction ps generalizing s with
  | nil => simp [applyPuts, lastWrite]
  | cons p rest ih =>
      obtain ⟨k0, t0⟩ := p
      show storeGet (applyPuts rest (storePut s k0 t0)) k = _
      rw [ih]
      cases hlw : lastWrite rest k with
      | some t => simp [lastWrite, hlw]
      | none =>
          simp only [lastWrite, hlw]
          by_cases hk : k == k0
          · have : k = k0 := by simpa using hk
            subst this
            simp [storeGet_storePut_self, hk]
          · have hne : k ≠ k0 := by simpa using hk
            simp [storeGet_storePut_other s k0 k t0 hne, hk]

/-! ### Skip-if-exists merge lemmas (C5) -/

theorem mergeFold_hasKey_mono (f : Store) (r : Store) (k : String)
    (h : hasKey r k = true) :
    hasKey (mergeFold f r) k = true := by
  induction f generalizing r with
  | nil => exact h
  | cons p rest ih =>
      show hasKey (List.foldl _ (if hasKey r p.1 then r else storePut r p.1 p.2) rest) k = true
      by_cases hp : hasKey r p.1
      · simpa [hp] using ih r h
      · have : hasKey (storePut r p.1 p.2) k = true := by
          rw [hasKey_storePut, h]
          simp
        simpa [hp] using ih (storePut r p.1 p.2) this

theorem mergeFold_get_present (f : Store) (r : Store) (k : String)
    (h : hasKey r k = true) :
    storeGet (mergeFold f r) k = storeGet r k := by
  induction f generalizing r with
  | nil => rfl
  | cons p rest ih =>
      show storeGet (List.foldl _ (if hasKey r p.1 then r else storePut r p.1 p.2) rest) k
        = storeGet r k
      by_cases hp : hasKey r p.1
      · simpa [hp] using ih r h
      · have hne : k ≠ p.1 := by
          intro hkk
          rw [hkk] at h
          exact absurd h (by simp [hp])
        have hkey : hasKey (storePut r p.1 p.2) k = true := by
          rw [hasKey_storePut, h]
          simp
        have := ih (storePut r p.1 p.2) hkey
        rw [storeGet_storePut_other r p.1 k p.2 hne] at this
        simpa [hp] using this

theorem mergeFold_hasKey_all (f : Store) (r : Store) :
    ∀ p ∈ f, hasKey (mergeFold f r) p.1 = true := by
  induction f generalizing r with
  | nil => intro p hp; simp at hp
  | cons q rest ih =>
      intro p hp
      rcases List.mem_cons.1 hp with rfl | hp
      · show hasKey (List.foldl _ (if hasKey r p.1 then r else storePut r p.1 p.2) rest) p.1
          = true
        by_cases hq : hasKey r p.1
        · simpa [hq] using mergeFold_hasKey_mono rest r p.1 hq
        · have : hasKey (storePut r p.1 p.2) p.1 = true := by
            rw [hasKey_storePut]
            simp
          simpa [hq] using mergeFold_hasKey_mono rest (storePut r p.1 p.2) p.1 this
      · show hasKey (List.foldl _ (if hasKey r q.1 then r else storePut r q.1 q.2) rest) p.1
          = true
        by_cases hq : hasKey r q.1
        · simpa [hq] using ih r p hp
        · simpa [hq] using ih (storePut r q.1 q.2) p hp

theorem mergeFold_noop (f : Store) (r : Store)
    (h : ∀ p ∈ f, hasKey r p.1 = true) :
    mergeFold f r = r := by
  induction f with
  | nil => rfl
  | cons p rest ih =>
      have hp : hasKey r p.1 = true := h p (by simp)
      show List.foldl _ (if hasKey r p.1 then r else storePut r p.1 p.2) rest = r
      rw [hp]
      simp only [if_true]
      exact ih (fun q hq => h q (by simp [hq]))

/-! ### Concrete inputs used by counterexamples and witnesses -/

/-- A partition key already present in the canonical store. -/
def exKey : String := "/EURUSD/y2024/m01/d02"

/-- A second partition key. -/
def exKey2 : String := "/EURUSD/y2024/m01/d03"

/-- A tick row already present in the canonical store at `exKey`. -/
def rowA : TickRow := ⟨1704153600000, 11, 10, 1, 1⟩

/-- A different tick row for the same key held by a temp worker file. -/
def rowB : TickRow := ⟨1704153600001, 12, 11, 2, 2⟩

/-! ### C1: Fold stage -/

/-- C1 counterexample: the Fold stage of `merge_hdf5_files` does *not*
write with skip-if-exists policy. With the canonical store already holding
`[rowA]` at `exKey` and one readable temp file holding `[rowB]` at the same
key, after the fold the canonical store holds `[rowB]` there: the
pre-existing table was overwritten, not kept. -/
theorem fold_overwrites_counterexample :
    storeGet (merge_hdf5_files [TempFile.ok [(exKey, [rowB])]] [(exKey, [rowA])]).1 exKey
      = some [rowB] ∧ ([rowB] : Table) ≠ [rowA] := by
  constructor
  · rfl
  · decide

/-- C1 amended (Fold overwrite idempotence): the Fold stage writes each
temp-file key into the canonical store with pandas `put` *overwrite*
semantics, not skip-if-exists. Hence (i) a key written by no temp file keeps
its existing canonical table, and (ii) running the fold twice on the same
temp-file contents still yields, at every key, the same canonical-store
table as running it once. -/
theorem fold_overwrite_idempotent (temps : List TempFile) (S : Store) (k : String) :
    (lastWrite (foldWrites temps) k = none →
      storeGet (merge_hdf5_files temps S).1 k = storeGet S k) ∧
    storeGet (merge_hdf5_files temps (merge_hdf5_files temps S).1).1 k
      = storeGet (merge_hdf5_files temps S).1 k := by
  constructor
  · intro hnone
    rw [merge_hdf5_files_eq]
    simp only
    rw [applyPuts_get, hnone]
  · simp only [merge_hdf5_files_eq]
    rw [applyPuts_get, applyPuts_get]
    cases hlw : lastWrite (foldWrites temps) k <;> simp [hlw]

/-- C1 witness: the amended fold theorem applied to one concrete
readable temp file, a canonical store holding a different key, and that
unwritten key. -/
theorem fold_overwrite_idempotent_witness :
    storeGet (merge_hdf5_files [TempFile.ok [(exKey, [rowB])]] [(exKey2, [rowA])]).1 exKey2
      = storeGet [(exKey2, [rowA])] exKey2 ∧
    storeGet
      (merge_hdf5_files [TempFile.ok [(exKey, [rowB])]]
        (merge_hdf5_files [TempFile.ok [(exKey, [rowB])]] [(exKey2, [rowA])]).1).1 exKey2
      = storeGet (merge_hdf5_files [TempFile.ok [(exKey, [rowB])]] [(exKey2, [rowA])]).1 exKey2 :=
  ⟨(fold_overwrite_idempotent [TempFile.ok [(exKey, [rowB])]] [(exKey2, [rowA])] exKey2).1
      (by decide),
   (fold_overwrite_idempotent [TempFile.ok [(exKey, [rowB])]] [(exKey2, [rowA])] exKey2).2⟩

/-! ### C5: Merge-into-raw -/

/-- C5 (Merge-into-raw skip-if-exists idempotence):
`merge_instrument_file` on an existing fetched file and an existing raw
store folds with skip-if-exists, so (i) the raw store's table at every
pre-existing key is unchanged, and (ii) applying the merge twice yields the
same raw store as applying it once. -/
theorem merge_into_raw_idempotent (f r : Store) (k : String)
    (h : hasKey r k = true) :
    merge_instrument_file (some f) (some r) = some (mergeFold f r) ∧
    storeGet (mergeFold f r) k = storeGet r k ∧
    merge_instrument_file (some f) (some (mergeFold f r)) = some (mergeFold f r) := by
  refine ⟨rfl, mergeFold_get_present f r k h, ?_⟩
  show some (mergeFold f (mergeFold f r)) = some (mergeFold f r)
  rw [mergeFold_noop f (mergeFold f r) (mergeFold_hasKey_all f r)]

/-- C5 witness: merging a fetched file holding `exKey` and `exKey2`
into a raw store already holding `exKey`. -/
theorem merge_into_raw_idempotent_witness :
    merge_instrument_file (some [(exKey, [rowB]), (exKey2, [rowB])]) (some [(exKey, [rowA])])
      = some (mergeFold [(exKey, [rowB]), (exKey2, [rowB])] [(exKey, [rowA])]) ∧
    storeGet (mergeFold [(exKey, [rowB]), (exKey2, [rowB])] [(exKey, [rowA])]) exKey
      = storeGet [(exKey, [rowA])] exKey ∧
    merge_instrument_file (some [(exKey, [rowB]), (exKey2, [rowB])])
        (some (mergeFold [(exKey, [rowB]), (exKey2, [rowB])] [(exKey, [rowA])]))
      = some (mergeFold [(exKey, [rowB]), (exKey2, [rowB])] [(exKey, [rowA])]) :=
  merge_into_raw_idempotent [(exKey, [rowB]), (exKey2, [rowB])] [(exKey, [rowA])] exKey
    (by decide)

/-! ### C8: Merge-into-raw never bootstraps -/

/-- C8 (Merge-into-raw never bootstraps): when the long-lived raw store
file for an instrument does not exist, `merge_instrument_file` returns
without creating it or writing any data — the raw store stays absent
whatever the fetched file holds. -/
theorem merge_into_raw_no_bootstrap (fetched : Option Store) :
    merge_instrument_file fetched none = none := by
  cases fetched <;> rfl

/-! ### C10: Unconditional temp-file deletion -/

/-- C10 (Unconditional temp-file deletion during fold): every temp file
that exists on disk is deleted by `merge_hdf5_files` whether or not its
contents were merged — in particular an unreadable temp file is deleted
while contributing nothing to the canonical store, so its unmerged data is
discarded. -/
theorem temp_file_always_deleted (temps : List TempFile) (final : Store)
    (i : Nat) (hi : i < temps.length)
    (hne : temps.get ⟨i, hi⟩ ≠ TempFile.missing) :
    (merge_hdf5_files temps final).2.get? i = some true ∧
    processTemp final TempFile.unreadable = (final, true) := by
  refine ⟨?_, rfl⟩
  rw [merge_hdf5_files_eq]
  simp only
  rw [List.get?_eq_getElem?, List.getElem?_map]
  rw [List.getElem?_eq_getElem (by simpa using hi)]
  have : temps[i] = temps.get ⟨i, hi⟩ := rfl
  rw [this]
  cases hcase : temps.get ⟨i, hi⟩ with
  | missing => exact absurd hcase hne
  | unreadable => rfl
  | ok c => rfl

/-- C10 witness: a single unreadable temp worker file is deleted. -/
theorem temp_file_always_deleted_witness :
    (merge_hdf5_files [TempFile.unreadable] []).2.get? 0 = some true ∧
    processTemp [] TempFile.unreadable = ([], true) :=
  temp_file_always_deleted [TempFile.unreadable] [] 0 (by decide) (by decide)

/-! ## IntegrityScanner: `scanner.valid_dates` and `scanner.scan_hdf5`

An HDF5 file as h5py presents it to the scanner: instrument groups, each
holding year groups `y<YYYY>`, holding month groups `m<MM>`, holding day
groups `d<DD>`; a day group may or may not contain a `table` node, and
that node may or may not read back cleanly (`is_dataset_good`). -/

/-- A day group as the scanner probes it: whether a `table` node is in the
group, and whether reading that node succeeds. -/
structure DayGroup where
  hasTable : Bool
  tableGood : Bool
deriving DecidableEq, Repr

/-- Day-number-keyed day groups of one month group. -/
abbrev MonthGroup := List (Nat × DayGroup)

/-- Month-number-keyed month groups of one year group. -/
abbrev YearGroup := List (Nat × MonthGroup)

/-- Year-number-keyed year groups of one instrument. -/
abbrev InstrData := List (Nat × YearGroup)

/-- Instrument-keyed contents of one HDF5 store file. -/
abbrev H5File := List (String × InstrData)

/-- Lookup by numeric key (h5py `group[key]`, raising `KeyError` when
absent, modelled as `none`). -/
def lookupNat (l : List (Nat × α)) (d : Nat) : Option α :=
  (l.find? (fun p => p.1 == d)).map (fun p => p.2)

/-- Insertion step of sorting group keys numerically ascending. -/
def insertByKey (p : Nat × α) : List (Nat × α) → List (Nat × α)
  | [] => [p]
  | q :: qs => if p.1 ≤ q.1 then p :: q :: qs else q :: insertByKey p qs

/-- Sorting `sorted(keys, key=lambda x: int(x[1:]))`: numerically ascending keys. -/
def sortByKey (l : List (Nat × α)) : List (Nat × α) := l.foldr insertByKey []

/-- Generator `scanner.valid_dates(year, month)`: every day of the month whose
weekday is not Saturday (Python `weekday() == 5`), ascending. -/
def valid_dates (y m : Nat) : List Nat :=
  ((List.range (daysInMonth y m)).map (fun i => i + 1)).filter
    (fun d => pyWeekday y m d != 5)

/-- The recording filter of `scan_hdf5`:
`(not start_date or date_obj >= start_date) and (not end_date or date_obj <= end_date)`,
on ordinals of the dates involved. -/
def inRange (startO endO : Option Nat) (o : Nat) : Bool :=
  (match startO with | none => true | some s => decide (s ≤ o)) &&
  (match endO with | none => true | some e => decide (o ≤ e))

/-- The scanner's per-instrument mutable state: `last_good_date` plus the
growing `missing_tables` / `missing_groups` rows. -/
structure ScanAcc where
  lastGood : Option YMD
  missingGroups : List (String × YMD)
  missingTables : List (String × YMD)
deriving DecidableEq, Repr

/-- The body of the innermost `for date_obj in valid_dates(year, month)`
loop of `scan_hdf5`: probe the day group, mark it good, corrupt (recorded
when in range), or absent (recorded when in range). -/
def dayStep (instr : String) (s e : Option Nat) (y m : Nat) (mgC : MonthGroup)
    (a : ScanAcc) (d : Nat) : ScanAcc :=
  match lookupNat mgC d with
  | some dg =>
      if dg.hasTable && dg.tableGood then { a with lastGood := some ⟨y, m, d⟩ }
      else if inRange s e (toOrd y m d)
        then { a with missingTables := a.missingTables ++ [(instr, ⟨y, m, d⟩)] }
        else a
  | none =>
      if inRange s e (toOrd y m d)
        then { a with missingGroups := a.missingGroups ++ [(instr, ⟨y, m, d⟩)] }
        else a

/-- The day loop over a list of day numbers. -/
def scanDays (instr : String) (s e : Option Nat) (y m : Nat) (mgC : MonthGroup) :
    List Nat → ScanAcc → ScanAcc
  | [], a => a
  | d :: ds, a => scanDays instr s e y m mgC ds (dayStep instr s e y m mgC a d)

/-- The month loop: months are visited in the order given (already sorted
by the caller), each over its `valid_dates`. -/
def scanMonths (instr : String) (s e : Option Nat) (y : Nat) :
    List (Nat × MonthGroup) → ScanAcc → ScanAcc
  | [], a => a
  | (m, mgC) :: ms, a =>
      scanMonths instr s e y ms (scanDays instr s e y m mgC (valid_dates y m) a)

/-- The year loop: for each year group, its month groups sorted ascending. -/
def scanYears (instr : String) (s e : Option Nat) :
    List (Nat × YearGroup) → ScanAcc → ScanAcc
  | [], a => a
  | (y, yg) :: ys, a => scanYears instr s e ys (scanMonths instr s e y (sortByKey yg) a)

/-- One instrument's pass of `scan_hdf5`: year groups sorted ascending,
starting from `last_good_date = None` and the lists accumulated so far. -/
def scanInstrument (instr : String) (s e : Option Nat) (idata : InstrData)
    (a : ScanAcc) : ScanAcc :=
  scanYears instr s e (sortByKey idata) a

/-- The per-instrument step of the outer `for instrument in f.keys()` loop:
run the instrument's pass starting from `last_good_date = None` and the
missing lists accumulated so far, then append `[instrument, last_good_date]`
to `last_updates` when a good date was found. -/
def scanStep (s e : Option Nat)
    (acc : List (String × YMD) × List (String × YMD) × List (String × YMD))
    (p : String × InstrData) :
    List (String × YMD) × List (String × YMD) × List (String × YMD) :=
  let a := scanInstrument p.1 s e p.2 ⟨none, acc.2.1, acc.2.2⟩
  (match a.lastGood with
   | some d => acc.1 ++ [(p.1, d)]
   | none => acc.1,
   a.missingGroups, a.missingTables)

/-- Scanner `scanner.scan_hdf5(file_path, start_date, end_date)`: returns
`(last_updates, missing_groups, missing_tables)`. -/
def scan_hdf5 (f : H5File) (s e : Option Nat) :
    List (String × YMD) × List (String × YMD) × List (String × YMD) :=
  f.foldl (scanStep s e) ([], [], [])

/-! ### Weekday exclusion (C7) -/

theorem valid_dates_weekday {y m d : Nat} (h : d ∈ valid_dates y m) :
    pyWeekday y m d ≠ 5 := by
  have := List.of_mem_filter h
  simpa using this

theorem valid_dates_bounds {y m d : Nat} (h : d ∈ valid_dates y m) :
    1 ≤ d ∧ d ≤ daysInMonth y m := by
  have hmem := List.mem_of_mem_filter h
  obtain ⟨i, hi, rfl⟩ := List.mem_map.1 hmem
  have := List.mem_range.1 hi
  omega

/-- Invariant: every date recorded so far avoids the excluded weekday. -/
def accOK (a : ScanAcc) : Prop :=
  (∀ p ∈ a.missingGroups, pyWeekday p.2.y p.2.m p.2.d ≠ 5) ∧
  (∀ p ∈ a.missingTables, pyWeekday p.2.y p.2.m p.2.d ≠ 5) ∧
  (∀ x, a.lastGood = some x → pyWeekday x.y x.m x.d ≠ 5)

theorem dayStep_accOK {instr : String} {s e : Option Nat} {y m : Nat}
    {mgC : MonthGroup} {a : ScanAcc} {d : Nat}
    (hd : pyWeekday y m d ≠ 5) (ha : accOK a) :
    accOK (dayStep instr s e y m mgC a d) := by
  obtain ⟨h1, h2, h3⟩ := ha
  unfold dayStep
  split
  · split
    · refine ⟨h1, h2, ?_⟩
      intro x hx
      simp only [Option.some.injEq] at hx
      rw [← hx]
      exact hd
    · split
      · refine ⟨h1, ?_, h3⟩
        intro p hp
        rcases List.mem_append.1 hp with hp | hp
        · exact h2 p hp
        · rw [List.mem_singleton] at hp
          subst hp
          exact hd
      · exact ⟨h1, h2, h3⟩
  · split
    · refine ⟨?_, h2, h3⟩
      intro p hp
      rcases List.mem_append.1 hp with hp | hp
      · exact h1 p hp
      · rw [List.mem_singleton] at hp
        subst hp
        exact hd
    · exact ⟨h1, h2, h3⟩

theorem scanDays_accOK (instr : String) (s e : Option Nat) (y m : Nat)
    (mgC : MonthGroup) (ds : List Nat) (a : ScanAcc)
    (hds : ∀ d ∈ ds, pyWeekday y m d ≠ 5) (ha : accOK a) :
    accOK (scanDays instr s e y m mgC ds a) := by
  induction ds generalizing a with
  | nil => exact ha
  | cons d rest ih =>
      exact ih _ (fun x hx => hds x (by simp [hx]))
        (dayStep_accOK (hds d (by simp)) ha)

theorem scanMonths_accOK (instr : String) (s e : Option Nat) (y : Nat)
    (ms : List (Nat × MonthGroup)) (a : ScanAcc) (ha : accOK a) :
    accOK (scanMonths instr s e y ms a) := by
  induction ms generalizing a with
  | nil => exact ha
  | cons p rest ih =>
      obtain ⟨m, mgC⟩ := p
      exact ih _ (scanDays_accOK instr s e y m mgC _ _
        (fun d hd => valid_dates_weekday hd) ha)

theorem scanYears_accOK (instr : String) (s e : Option Nat)
    (ys : List (Nat × YearGroup)) (a : ScanAcc) (ha : accOK a) :
    accOK (scanYears instr s e ys a) := by
  induction ys generalizing a with
  | nil => exact ha
  | cons p rest ih =>
      obtain ⟨y, yg⟩ := p
      exact ih _ (scanMonths_accOK instr s e y _ _ ha)

/-- Invariant on the scanner's output triple. -/
def tripOK (acc : List (String × YMD) × List (String × YMD) × List (String × YMD)) : Prop :=
  (∀ p ∈ acc.1, pyWeekday p.2.y p.2.m p.2.d ≠ 5) ∧
  (∀ p ∈ acc.2.1, pyWeekday p.2.y p.2.m p.2.d ≠ 5) ∧
  (∀ p ∈ acc.2.2, pyWeekday p.2.y p.2.m p.2.d ≠ 5)

theorem scanStep_tripOK (s e : Option Nat)
    (acc : List (String × YMD) × List (String × YMD) × List (String × YMD))
    (p : String × InstrData) (h : tripOK acc) : tripOK (scanStep s e acc p) := by
  obtain ⟨h1, h2, h3⟩ := h
  have hacc : accOK ⟨none, acc.2.1, acc.2.2⟩ := ⟨h2, h3, by simp⟩
  obtain ⟨hg, ht, hl⟩ := scanYears_accOK p.1 s e (sortByKey p.2) _ hacc
  refine ⟨?_, hg, ht⟩
  intro q hq
  simp only [scanStep] at hq
  revert hq
  cases hlg : (scanInstrument p.1 s e p.2 ⟨none, acc.2.1, acc.2.2⟩).lastGood with
  | some dd =>
      intro hq
      rcases List.mem_append.1 hq with hq | hq
      · exact h1 q hq
      · rw [List.mem_singleton] at hq
        subst hq
        exact hl dd hlg
  | none =>
      intro hq
      exact h1 q hq

theorem scanFold_tripOK (s e : Option Nat) (f : H5File)
    (acc : List (String × YMD) × List (String × YMD) × List (String × YMD))
    (h : tripOK acc) : tripOK (f.foldl (scanStep s e) acc) := by
  induction f generalizing acc with
  | nil => exact h
  | cons p rest ih => exact ih _ (scanStep_tripOK s e acc p h)

/-- C7 (Weekday exclusion): no date whose weekday is the excluded
Saturday (Python `weekday() == 5`) ever appears in the scanner's
`missing_groups` or `missing_tables`, nor as any instrument's reported
`last_good_date` — such dates are skipped entirely. -/
theorem weekday_exclusion (f : H5File) (s e : Option Nat) :
    ((scan_hdf5 f s e).1.all (fun p => pyWeekday p.2.y p.2.m p.2.d != 5)) = true ∧
    ((scan_hdf5 f s e).2.1.all (fun p => pyWeekday p.2.y p.2.m p.2.d != 5)) = true ∧
    ((scan_hdf5 f s e).2.2.all (fun p => pyWeekday p.2.y p.2.m p.2.d != 5)) = true := by
  have h := scanFold_tripOK s e f ([], [], []) (by refine ⟨?_, ?_, ?_⟩ <;> simp)
  obtain ⟨h1, h2, h3⟩ := h
  refine ⟨?_, ?_, ?_⟩ <;> rw [List.all_eq_true]
  · intro p hp
    simpa using h1 p hp
  · intro p hp
    simpa using h2 p hp
  · intro p hp
    simpa using h3 p hp

/-! ### Scan-range noninterference (C9) -/

theorem dayStep_lastGood (instr : String) (s e s2 e2 : Option Nat) (y m : Nat)
    (mgC : MonthGroup) (a a2 : ScanAcc) (d : Nat)
    (h : a.lastGood = a2.lastGood) :
    (dayStep instr s e y m mgC a d).lastGood
      = (dayStep instr s2 e2 y m mgC a2 d).lastGood := by
  unfold dayStep
  cases hk : lookupNat mgC d with
  | some dg =>
      by_cases hg : (dg.hasTable && dg.tableGood) = true
      · simp [hg]
      · by_cases hr : inRange s e (toOrd y m d) = true <;>
          by_cases hr2 : inRange s2 e2 (toOrd y m d) = true <;>
          simp [hg, hr, hr2, h]
  | none =>
      by_cases hr : inRange s e (toOrd y m d) = true <;>
        by_cases hr2 : inRange s2 e2 (toOrd y m d) = true <;>
        simp [hr, hr2, h]

theorem scanDays_lastGood (instr : String) (s e s2 e2 : Option Nat) (y m : Nat)
    (mgC : MonthGroup) (ds : List Nat) (a a2 : ScanAcc)
    (h : a.lastGood = a2.lastGood) :
    (scanDays instr s e y m mgC ds a).lastGood
      = (scanDays instr s2 e2 y m mgC ds a2).lastGood := by
  induction ds generalizing a a2 with
  | nil => exact h
  | cons d rest ih =>
      exact ih _ _ (dayStep_lastGood instr s e s2 e2 y m mgC a a2 d h)

theorem scanMonths_lastGood (instr : String) (s e s2 e2 : Option Nat) (y : Nat)
    (ms : List (Nat × MonthGroup)) (a a2 : ScanAcc)
    (h : a.lastGood = a2.lastGood) :
    (scanMonths instr s e y ms a).lastGood
      = (scanMonths instr s2 e2 y ms a2).lastGood := by
  induction ms generalizing a a2 with
  | nil => exact h
  | cons p rest ih =>
      obtain ⟨m, mgC⟩ := p
      exact ih _ _ (scanDays_lastGood instr s e s2 e2 y m mgC _ a a2 h)

theorem scanYears_lastGood (instr : String) (s e s2 e2 : Option Nat)
    (ys : List (Nat × YearGroup)) (a a2 : ScanAcc)
    (h : a.lastGood = a2.lastGood) :
    (scanYears instr s e ys a).lastGood
      = (scanYears instr s2 e2 ys a2).lastGood := by
  induction ys generalizing a a2 with
  | nil => exact h
  | cons p rest ih =>
      obtain ⟨y, yg⟩ := p
      exact ih _ _ (scanMonths_lastGood instr s e s2 e2 y _ a a2 h)

theorem scanFold_lastUpdates (s e s2 e2 : Option Nat) (f : H5File)
    (acc acc2 : List (String × YMD) × List (String × YMD) × List (String × YMD))
    (h : acc.1 = acc2.1) :
    (f.foldl (scanStep s e) acc).1 = (f.foldl (scanStep s2 e2) acc2).1 := by
  induction f generalizing acc acc2 with
  | nil => exact h
  | cons p rest ih =>
      apply ih
      simp only [scanStep]
      have hlg : (scanInstrument p.1 s e p.2 ⟨none, acc.2.1, acc.2.2⟩).lastGood
          = (scanInstrument p.1 s2 e2 p.2 ⟨none, acc2.2.1, acc2.2.2⟩).lastGood :=
        scanYears_lastGood p.1 s e s2 e2 (sortByKey p.2) _ _ rfl
      rw [hlg, h]

/-- C9 (Scan-range noninterference of `last_good_date`): two runs of
`scan_hdf5` on the same file that differ only in the `start_date` /
`end_date` arguments produce identical `last_updates` output — the range
filter restricts only what is recorded in `missing_groups` and
`missing_tables`, never the reported `last_good_date`. -/
theorem scan_range_noninterference (f : H5File) (s e s2 e2 : Option Nat) :
    (scan_hdf5 f s e).1 = (scan_hdf5 f s2 e2).1 :=
  scanFold_lastUpdates s e s2 e2 f ([], [], []) ([], [], []) rfl

/-! ### Full classification of the missing lists (C2) -/

theorem mem_insertByKey {α : Type} (p q : Nat × α) (l : List (Nat × α)) :
    q ∈ insertByKey p l ↔ q = p ∨ q ∈ l := by
  induction l with
  | nil => simp [insertByKey]
  | cons r rs ih =>
      unfold insertByKey
      by_cases h : p.1 ≤ r.1
      · simp [h]
      · simp [h, ih]
        tauto

theorem mem_sortByKey {α : Type} (l : List (Nat × α)) (q : Nat × α) :
    q ∈ sortByKey l ↔ q ∈ l := by
  induction l with
  | nil => simp [sortByKey]
  | cons p ps ih =>
      show q ∈ insertByKey p (sortByKey ps) ↔ _
      rw [mem_insertByKey]
      simp [ih]

theorem dayStep_mg_mem (instr : String) (s e : Option Nat) (y m : Nat)
    (mgC : MonthGroup) (a : ScanAcc) (d : Nat) (q : String × YMD) :
    q ∈ (dayStep instr s e y m mgC a d).missingGroups ↔
      q ∈ a.missingGroups ∨
      (q = (instr, ⟨y, m, d⟩) ∧ lookupNat mgC d = none ∧
        inRange s e (toOrd y m d) = true) := by
  unfold dayStep
  cases hk : lookupNat mgC d with
  | some dg =>
      by_cases hg : (dg.hasTable && dg.tableGood) = true
      · simp [hg]
      · by_cases hr : inRange s e (toOrd y m d) = true <;> simp [hg, hr]
  | none =>
      by_cases hr : inRange s e (toOrd y m d) = true <;> simp [hr]

theorem dayStep_mt_mem (instr : String) (s e : Option Nat) (y m : Nat)
    (mgC : MonthGroup) (a : ScanAcc) (d : Nat) (q : String × YMD) :
    q ∈ (dayStep instr s e y m mgC a d).missingTables ↔
      q ∈ a.missingTables ∨
      (q = (instr, ⟨y, m, d⟩) ∧
        (∃ dg, lookupNat mgC d = some dg ∧ (dg.hasTable && dg.tableGood) = false) ∧
        inRange s e (toOrd y m d) = true) := by
  unfold dayStep
  cases hk : lookupNat mgC d with
  | some dg =>
      by_cases hg : (dg.hasTable && dg.tableGood) = true
      · simp [hg]
        intro _ hcontra _
        have hsplit : dg.hasTable = true ∧ dg.tableGood = true := by
          simpa using hg
        obtain ⟨ht, htg⟩ := hsplit
        have hfalse := hcontra ht
        rw [hfalse] at htg
        exact Bool.noConfusion htg
      · have hgf : (dg.hasTable && dg.tableGood) = false := by
          revert hg
          cases dg.hasTable && dg.tableGood <;> simp
        have himp : dg.hasTable = true → dg.tableGood = false := by
          revert hgf
          cases dg.hasTable <;> cases dg.tableGood <;> simp
        by_cases hr : inRange s e (toOrd y m d) = true <;> simp [hgf, hr] <;> tauto
  | none =>
      by_cases hr : inRange s e (toOrd y m d) = true <;> simp [hr]

theorem scanDays_mg_mem (instr : String) (s e : Option Nat) (y m : Nat)
    (mgC : MonthGroup) (ds : List Nat) (a : ScanAcc) (q : String × YMD) :
    q ∈ (scanDays instr s e y m mgC ds a).missingGroups ↔
      q ∈ a.missingGroups ∨
      ∃ d ∈ ds, q = (instr, ⟨y, m, d⟩) ∧ lookupNat mgC d = none ∧
        inRange s e (toOrd y m d) = true := by
  induction ds generalizing a with
  | nil => simp [scanDays]
  | cons d rest ih =>
      show q ∈ (scanDays instr s e y m mgC rest (dayStep instr s e y m mgC a d)).missingGroups ↔ _
      rw [ih, dayStep_mg_mem]
      simp only [List.mem_cons]
      constructor
      · rintro ((h | h) | ⟨d2, hd2, h⟩)
        · exact Or.inl h
        · exact Or.inr ⟨d, Or.inl rfl, h⟩
        · exact Or.inr ⟨d2, Or.inr hd2, h⟩
      · rintro (h | ⟨d2, (rfl | hd2), h⟩)
        · exact Or.inl (Or.inl h)
        · exact Or.inl (Or.inr h)
        · exact Or.inr ⟨d2, hd2, h⟩

theorem scanDays_mt_mem (instr : String) (s e : Option Nat) (y m : Nat)
    (mgC : MonthGroup) (ds : List Nat) (a : ScanAcc) (q : String × YMD) :
    q ∈ (scanDays instr s e y m mgC ds a).missingTables ↔
      q ∈ a.missingTables ∨
      ∃ d ∈ ds, q = (instr, ⟨y, m, d⟩) ∧
        (∃ dg, lookupNat mgC d = some dg ∧ (dg.hasTable && dg.tableGood) = false) ∧
        inRange s e (toOrd y m d) = true := by
  induction ds generalizing a with
  | nil => simp [scanDays]
  | cons d rest ih =>
      show q ∈ (scanDays instr s e y m mgC rest (dayStep instr s e y m mgC a d)).missingTables ↔ _
      rw [ih, dayStep_mt_mem]
      simp only [List.mem_cons]
      constructor
      · rintro ((h | h) | ⟨d2, hd2, h⟩)
        · exact Or.inl h
        · exact Or.inr ⟨d, Or.inl rfl, h⟩
        · exact Or.inr ⟨d2, Or.inr hd2, h⟩
      · rintro (h | ⟨d2, (rfl | hd2), h⟩)
        · exact Or.inl (Or.inl h)
        · exact Or.inl (Or.inr h)
        · exact Or.inr ⟨d2, hd2, h⟩

theorem scanMonths_mg_mem (instr : String) (s e : Option Nat) (y : Nat)
    (ms : List (Nat × MonthGroup)) (a : ScanAcc) (q : String × YMD) :
    q ∈ (scanMonths instr s e y ms a).missingGroups ↔
      q ∈ a.missingGroups ∨
      ∃ pm ∈ ms, ∃ d ∈ valid_dates y pm.1, q = (instr, ⟨y, pm.1, d⟩) ∧
        lookupNat pm.2 d = none ∧ inRange s e (toOrd y pm.1 d) = true := by
  induction ms generalizing a with
  | nil => simp [scanMonths]
  | cons pm rest ih =>
      obtain ⟨m, mgC⟩ := pm
      show q ∈ (scanMonths instr s e y rest
        (scanDays instr s e y m mgC (valid_dates y m) a)).missingGroups ↔ _
      rw [ih, scanDays_mg_mem]
      simp only [List.mem_cons]
      constructor
      · rintro ((h | ⟨d, hd, h⟩) | ⟨pm2, hpm2, h⟩)
        · exact Or.inl h
        · exact Or.inr ⟨(m, mgC), Or.inl rfl, d, hd, h⟩
        · exact Or.inr ⟨pm2, Or.inr hpm2, h⟩
      · rintro (h | ⟨pm2, (rfl | hpm2), h⟩)
        · exact Or.inl (Or.inl h)
        · exact Or.inl (Or.inr h)
        · exact Or.inr ⟨pm2, hpm2, h⟩

theorem scanMonths_mt_mem (instr : String) (s e : Option Nat) (y : Nat)
    (ms : List (Nat × MonthGroup)) (a : ScanAcc) (q : String × YMD) :
    q ∈ (scanMonths instr s e y ms a).missingTables ↔
      q ∈ a.missingTables ∨
      ∃ pm ∈ ms, ∃ d ∈ valid_dates y pm.1, q = (instr, ⟨y, pm.1, d⟩) ∧
        (∃ dg, lookupNat pm.2 d = some dg ∧ (dg.hasTable && dg.tableGood) = false) ∧
        inRange s e (toOrd y pm.1 d) = true := by
  induction ms generalizing a with
  | nil => simp [scanMonths]
  | cons pm rest ih =>
      obtain ⟨m, mgC⟩ := pm
      show q ∈ (scanMonths instr s e y rest
        (scanDays instr s e y m mgC (valid_dates y m) a)).missingTables ↔ _
      rw [ih, scanDays_mt_mem]
      simp only [List.mem_cons]
      constructor
      · rintro ((h | ⟨d, hd, h⟩) | ⟨pm2, hpm2, h⟩)
        · exact Or.inl h
        · exact Or.inr ⟨(m, mgC), Or.inl rfl, d, hd, h⟩
        · exact Or.inr ⟨pm2, Or.inr hpm2, h⟩
      · rintro (h | ⟨pm2, (rfl | hpm2), h⟩)
        · exact Or.inl (Or.inl h)
        · exact Or.inl (Or.inr h)
        · exact Or.inr ⟨pm2, hpm2, h⟩

theorem scanYears_mg_mem (instr : String) (s e : Option Nat)
    (ys : List (Nat × YearGroup)) (a : ScanAcc) (q : String × YMD) :
    q ∈ (scanYears instr s e ys a).missingGroups ↔
      q ∈ a.missingGroups ∨
      ∃ py ∈ ys, ∃ pm ∈ py.2, ∃ d ∈ valid_dates py.1 pm.1,
        q = (instr, ⟨py.1, pm.1, d⟩) ∧ lookupNat pm.2 d = none ∧
        inRange s e (toOrd py.1 pm.1 d) = true := by
  induction ys generalizing a with
  | nil => simp [scanYears]
  | cons py rest ih =>
      obtain ⟨y, yg⟩ := py
      show q ∈ (scanYears instr s e rest
        (scanMonths instr s e y (sortByKey yg) a)).missingGroups ↔ _
      rw [ih, scanMonths_mg_mem]
      simp only [List.mem_cons]
      constructor
      · rintro ((h | ⟨pm, hpm, h⟩) | ⟨py2, hpy2, h⟩)
        · exact Or.inl h
        · exact Or.inr ⟨(y, yg), Or.inl rfl, pm, (mem_sortByKey yg pm).1 hpm, h⟩
        · exact Or.inr ⟨py2, Or.inr hpy2, h⟩
      · rintro (h | ⟨py2, (rfl | hpy2), h⟩)
        · exact Or.inl (Or.inl h)
        · obtain ⟨pm, hpm, h⟩ := h
          exact Or.inl (Or.inr ⟨pm, (mem_sortByKey yg pm).2 hpm, h⟩)
        · exact Or.inr ⟨py2, hpy2, h⟩

theorem scanYears_mt_mem (instr : String) (s e : Option Nat)
    (ys : List (Nat × YearGroup)) (a : ScanAcc) (q : String × YMD) :
    q ∈ (scanYears instr s e ys a).missingTables ↔
      q ∈ a.missingTables ∨
      ∃ py ∈ ys, ∃ pm ∈ py.2, ∃ d ∈ valid_dates py.1 pm.1,
        q = (instr, ⟨py.1, pm.1, d⟩) ∧
        (∃ dg, lookupNat pm.2 d = some dg ∧ (dg.hasTable && dg.tableGood) = false) ∧
        inRange s e (toOrd py.1 pm.1 d) = true := by
  induction ys generalizing a with
  | nil => simp [scanYears]
  | cons py rest ih =>
      obtain ⟨y, yg⟩ := py
      show q ∈ (scanYears instr s e rest
        (scanMonths instr s e y (sortByKey yg) a)).missingTables ↔ _
      rw [ih, scanMonths_mt_mem]
      simp only [List.mem_cons]
      constructor
      · rintro ((h | ⟨pm, hpm, h⟩) | ⟨py2, hpy2, h⟩)
        · exact Or.inl h
        · exact Or.inr ⟨(y, yg), Or.inl rfl, pm, (mem_sortByKey yg pm).1 hpm, h⟩
        · exact Or.inr ⟨py2, Or.inr hpy2, h⟩
      · rintro (h | ⟨py2, (rfl | hpy2), h⟩)
        · exact Or.inl (Or.inl h)
        · obtain ⟨pm, hpm, h⟩ := h
          exact Or.inl (Or.inr ⟨pm, (mem_sortByKey yg pm).2 hpm, h⟩)
        · exact Or.inr ⟨py2, hpy2, h⟩

/-- A date the scan must report absent for one instrument: the instrument's
data has a year group and month group containing the date's month, the date
is a valid (non-excluded) day of that month, its day group is absent, and
the date is inside the recording range. -/
def missingHit (s e : Option Nat) (idata : InstrData) (instr : String)
    (q : String × YMD) : Prop :=
  ∃ py ∈ idata, ∃ pm ∈ py.2, ∃ d ∈ valid_dates py.1 pm.1,
    q = (instr, ⟨py.1, pm.1, d⟩) ∧ lookupNat pm.2 d = none ∧
    inRange s e (toOrd py.1 pm.1 d) = true

/-- A date the scan must report corrupt for one instrument: as in
`missingHit` but the day group is present with no readable `table`. -/
def corruptHit (s e : Option Nat) (idata : InstrData) (instr : String)
    (q : String × YMD) : Prop :=
  ∃ py ∈ idata, ∃ pm ∈ py.2, ∃ d ∈ valid_dates py.1 pm.1,
    q = (instr, ⟨py.1, pm.1, d⟩) ∧
    (∃ dg, lookupNat pm.2 d = some dg ∧ (dg.hasTable && dg.tableGood) = false) ∧
    inRange s e (toOrd py.1 pm.1 d) = true

theorem scanFold_mg_mt_mem (s e : Option Nat) (f : H5File)
    (acc : List (String × YMD) × List (String × YMD) × List (String × YMD))
    (q : String × YMD) :
    (q ∈ (f.foldl (scanStep s e) acc).2.1 ↔
      q ∈ acc.2.1 ∨ ∃ p ∈ f, missingHit s e p.2 p.1 q) ∧
    (q ∈ (f.foldl (scanStep s e) acc).2.2 ↔
      q ∈ acc.2.2 ∨ ∃ p ∈ f, corruptHit s e p.2 p.1 q) := by
  induction f generalizing acc with
  | nil => simp
  | cons p rest ih =>
      have hstep_mg : (scanStep s e acc p).2.1
          = (scanYears p.1 s e (sortByKey p.2) ⟨none, acc.2.1, acc.2.2⟩).missingGroups := by
        simp only [scanStep]
        cases (scanInstrument p.1 s e p.2 ⟨none, acc.2.1, acc.2.2⟩).lastGood <;> rfl
      have hstep_mt : (scanStep s e acc p).2.2
          = (scanYears p.1 s e (sortByKey p.2) ⟨none, acc.2.1, acc.2.2⟩).missingTables := by
        simp only [scanStep]
        cases (scanInstrument p.1 s e p.2 ⟨none, acc.2.1, acc.2.2⟩).lastGood <;> rfl
      have hrec := ih (scanStep s e acc p)
      constructor
      · rw [List.foldl_cons, hrec.1, hstep_mg, scanYears_mg_mem]
        simp only [mem_sortByKey, List.mem_cons]
        constructor
        · rintro ((h | h) | ⟨p2, hp2, h⟩)
          · exact Or.inl h
          · exact Or.inr ⟨p, Or.inl rfl, h⟩
          · exact Or.inr ⟨p2, Or.inr hp2, h⟩
        · rintro (h | ⟨p2, (rfl | hp2), h⟩)
          · exact Or.inl (Or.inl h)
          · exact Or.inl (Or.inr h)
          · exact Or.inr ⟨p2, hp2, h⟩
      · rw [List.foldl_cons, hrec.2, hstep_mt, scanYears_mt_mem]
        simp only [mem_sortByKey, List.mem_cons]
        constructor
        · rintro ((h | h) | ⟨p2, hp2, h⟩)
          · exact Or.inl h
          · exact Or.inr ⟨p, Or.inl rfl, h⟩
          · exact Or.inr ⟨p2, Or.inr hp2, h⟩
        · rintro (h | ⟨p2, (rfl | hp2), h⟩)
          · exact Or.inl (Or.inl h)
          · exact Or.inl (Or.inr h)
          · exact Or.inr ⟨p2, hp2, h⟩

/-- The store file of the C2 counterexample: instrument `EURUSD` holds only
a January 2024 month group (day 2 present and good); February 2024 has no
month group at all. -/
def exFile : H5File := [("EURUSD", [(2024, [(1, [(2, ⟨true, true⟩)])])])]

/-- C2 counterexample: scanning `exFile` over 2024-02-01 … 2024-02-05,
the date 2024-02-02 is inside the range, its weekday (Friday) is not
excluded, and no partition for it is present — yet `missing_groups` comes
back empty, because `scan_hdf5` iterates only the year/month groups present
in the store and never visits dates of absent months. -/
theorem scan_full_range_counterexample :
    pyWeekday 2024 2 2 ≠ 5 ∧
    inRange (some (toOrd 2024 2 1)) (some (toOrd 2024 2 5)) (toOrd 2024 2 2) = true ∧
    (scan_hdf5 exFile (some (toOrd 2024 2 1)) (some (toOrd 2024 2 5))).2.1 = [] := by
  refine ⟨by decide, by decide, by decide⟩

/-- C2 amended (Scanner classification over present months): for every
store, date range, and pair `q = (instrument, date)`: `q` is recorded in
`missing_groups` exactly when the store has an entry for that instrument
whose data contains a year group and month group for the date, the date is
a non-excluded day of that month, its day group is absent, and the date is
inside the range; and `q` is recorded in `missing_tables` exactly when, in
the same situation, the day group is present but has no readable `table`.
Dates of months with no month group in the store are never recorded, and a
visited date meets exactly one of the three cases absent / corrupt /
present-good since they are decided by the same day-group lookup. -/
theorem scan_missing_classification (f : H5File) (s e : Option Nat)
    (q : String × YMD) :
    (q ∈ (scan_hdf5 f s e).2.1 ↔ ∃ p ∈ f, missingHit s e p.2 p.1 q) ∧
    (q ∈ (scan_hdf5 f s e).2.2 ↔ ∃ p ∈ f, corruptHit s e p.2 p.1 q) := by
  have h := scanFold_mg_mt_mem s e f ([], [], []) q
  refine ⟨?_, ?_⟩
  · rw [show scan_hdf5 f s e = f.foldl (scanStep s e) ([], [], []) from rfl, h.1]
    simp
  · rw [show scan_hdf5 f s e = f.foldl (scanStep s e) ([], [], []) from rfl, h.2]
    simp

/-! ### Monotonic last-good-date (C6)

The *good trace* of one instrument's pass: the dates whose day group is
present with a readable `table`, listed in the exact order the scan
encounters them. `last_good_date` is overwritten at precisely these
dates. -/

/-- Good dates of one month, in day order. -/
def goodDays (y m : Nat) (mgC : MonthGroup) (ds : List Nat) : List YMD :=
  ds.filterMap (fun d =>
    match lookupNat mgC d with
    | some dg => if dg.hasTable && dg.tableGood then some ⟨y, m, d⟩ else none
    | none => none)

/-- Good dates of one year's month list, in visit order. -/
def goodMonths (y : Nat) (ms : List (Nat × MonthGroup)) : List YMD :=
  (ms.map (fun pm => goodDays y pm.1 pm.2 (valid_dates y pm.1))).flatten

/-- Good dates of one year-group list, in visit order. -/
def goodYears (ys : List (Nat × YearGroup)) : List YMD :=
  (ys.map (fun py => goodMonths py.1 (sortByKey py.2))).flatten

/-- The whole good trace of one instrument's scan pass. -/
def goodTrace (idata : InstrData) : List YMD :=
  goodYears (sortByKey idata)

/-- The value of a variable overwritten in sequence by each element of `l`,
starting from `o`: the last element of `l` if any, else `o`. -/
def lastOr (l : List YMD) (o : Option YMD) : Option YMD :=
  match l with
  | [] => o
  | x :: xs => lastOr xs (some x)

theorem lastOr_append (l1 l2 : List YMD) (o : Option YMD) :
    lastOr (l1 ++ l2) o = lastOr l2 (lastOr l1 o) := by
  induction l1 generalizing o with
  | nil => rfl
  | cons x xs ih => simp [lastOr, ih]

theorem dayStep_lastGood_eq (instr : String) (s e : Option Nat) (y m : Nat)
    (mgC : MonthGroup) (a : ScanAcc) (d : Nat) :
    (dayStep instr s e y m mgC a d).lastGood
      = match lookupNat mgC d with
        | some dg =>
            if dg.hasTable && dg.tableGood then some ⟨y, m, d⟩ else a.lastGood
        | none => a.lastGood := by
  unfold dayStep
  cases hk : lookupNat mgC d with
  | some dg =>
      by_cases hg : (dg.hasTable && dg.tableGood) = true
      · simp [hg]
      · by_cases hr : inRange s e (toOrd y m d) = true <;> simp [hg, hr]
  | none => by_cases hr : inRange s e (toOrd y m d) = true <;> simp [hr]

theorem scanDays_lastGood_eq (instr : String) (s e : Option Nat) (y m : Nat)
    (mgC : MonthGroup) (ds : List Nat) (a : ScanAcc) :
    (scanDays instr s e y m mgC ds a).lastGood
      = lastOr (goodDays y m mgC ds) a.lastGood := by
  induction ds generalizing a with
  | nil => rfl
  | cons d rest ih =>
      show (scanDays instr s e y m mgC rest (dayStep instr s e y m mgC a d)).lastGood = _
      rw [ih]
      cases hk : lookupNat mgC d with
      | some dg =>
          by_cases hg : (dg.hasTable && dg.tableGood) = true
          · have hlg : (dayStep instr s e y m mgC a d).lastGood = some ⟨y, m, d⟩ := by
              rw [dayStep_lastGood_eq, hk]
              simp [hg]
            have hsplit : dg.hasTable = true ∧ dg.tableGood = true := by
              simpa using hg
            rw [hlg]
            simp [goodDays, List.filterMap_cons, hk, hsplit.1, hsplit.2, lastOr]
          · have hlg : (dayStep instr s e y m mgC a d).lastGood = a.lastGood := by
              rw [dayStep_lastGood_eq, hk]
              simp [hg]
            have hn : ¬(dg.hasTable = true ∧ dg.tableGood = true) := by
              simpa using hg
            rw [hlg]
            simp [goodDays, List.filterMap_cons, hk, hn]
      | none =>
          have hlg : (dayStep instr s e y m mgC a d).lastGood = a.lastGood := by
            rw [dayStep_lastGood_eq, hk]
          rw [hlg]
          simp [goodDays, List.filterMap_cons, hk]

theorem scanMonths_lastGood_eq (instr : String) (s e : Option Nat) (y : Nat)
    (ms : List (Nat × MonthGroup)) (a : ScanAcc) :
    (scanMonths instr s e y ms a).lastGood
      = lastOr (goodMonths y ms) a.lastGood := by
  induction ms generalizing a with
  | nil => rfl
  | cons pm rest ih =>
      obtain ⟨m, mgC⟩ := pm
      show (scanMonths instr s e y rest
        (scanDays instr s e y m mgC (valid_dates y m) a)).lastGood = _
      rw [ih, scanDays_lastGood_eq]
      rw [show goodMonths y ((m, mgC) :: rest)
        = goodDays y m mgC (valid_dates y m) ++ goodMonths y rest from by
          simp [goodMonths]]
      rw [lastOr_append]

theorem scanYears_lastGood_eq (instr : String) (s e : Option Nat)
    (ys : List (Nat × YearGroup)) (a : ScanAcc) :
    (scanYears instr s e ys a).lastGood
      = lastOr (goodYears ys) a.lastGood := by
  induction ys generalizing a with
  | nil => rfl
  | cons py rest ih =>
      obtain ⟨y, yg⟩ := py
      show (scanYears instr s e rest
        (scanMonths instr s e y (sortByKey yg) a)).lastGood = _
      rw [ih, scanMonths_lastGood_eq]
      rw [show goodYears ((y, yg) :: rest)
        = goodMonths y (sortByKey yg) ++ goodYears rest from by
          simp [goodYears]]
      rw [lastOr_append]

/-! ### Calendar ordering -/

theorem daysInMonth_pos (y m : Nat) : 1 ≤ daysInMonth y m := by
  unfold daysInMonth
  split
  · split <;> omega
  · split <;> omega

theorem daysBeforeMonth_succ (y m : Nat) (h : 1 ≤ m) :
    daysBeforeMonth y (m + 1) = daysBeforeMonth y m + daysInMonth y m := by
  obtain ⟨k, rfl⟩ : ∃ k, m = k + 1 := ⟨m - 1, by omega⟩
  rfl

theorem daysBeforeMonth_step (y k : Nat) :
    daysBeforeMonth y k ≤ daysBeforeMonth y (k + 1) := by
  cases k with
  | zero => simp [daysBeforeMonth]
  | succ j =>
      show daysBeforeMonth y (j + 1) ≤ daysBeforeMonth y (j + 1) + daysInMonth y (j + 1)
      omega

theorem daysBeforeMonth_mono (y : Nat) {m m' : Nat} (h : m ≤ m') :
    daysBeforeMonth y m ≤ daysBeforeMonth y m' := by
  induction h with
  | refl => exact Nat.le_refl _
  | step h ih => exact Nat.le_trans ih (daysBeforeMonth_step y _)

theorem daysBeforeMonth_13 (y : Nat) :
    daysBeforeMonth y 13 = daysInYear y := by
  have e13 : daysBeforeMonth y 13 = daysBeforeMonth y 12 + daysInMonth y 12 := rfl
  have e12 : daysBeforeMonth y 12 = daysBeforeMonth y 11 + daysInMonth y 11 := rfl
  have e11 : daysBeforeMonth y 11 = daysBeforeMonth y 10 + daysInMonth y 10 := rfl
  have e10 : daysBeforeMonth y 10 = daysBeforeMonth y 9 + daysInMonth y 9 := rfl
  have e9 : daysBeforeMonth y 9 = daysBeforeMonth y 8 + daysInMonth y 8 := rfl
  have e8 : daysBeforeMonth y 8 = daysBeforeMonth y 7 + daysInMonth y 7 := rfl
  have e7 : daysBeforeMonth y 7 = daysBeforeMonth y 6 + daysInMonth y 6 := rfl
  have e6 : daysBeforeMonth y 6 = daysBeforeMonth y 5 + daysInMonth y 5 := rfl
  have e5 : daysBeforeMonth y 5 = daysBeforeMonth y 4 + daysInMonth y 4 := rfl
  have e4 : daysBeforeMonth y 4 = daysBeforeMonth y 3 + daysInMonth y 3 := rfl
  have e3 : daysBeforeMonth y 3 = daysBeforeMonth y 2 + daysInMonth y 2 := rfl
  have e2 : daysBeforeMonth y 2 = daysBeforeMonth y 1 + daysInMonth y 1 := rfl
  have e1 : daysBeforeMonth y 1 = 0 := rfl
  have d1 : daysInMonth y 1 = 31 := rfl
  have d3 : daysInMonth y 3 = 31 := rfl
  have d4 : daysInMonth y 4 = 30 := rfl
  have d5 : daysInMonth y 5 = 31 := rfl
  have d6 : daysInMonth y 6 = 30 := rfl
  have d7 : daysInMonth y 7 = 31 := rfl
  have d8 : daysInMonth y 8 = 31 := rfl
  have d9 : daysInMonth y 9 = 30 := rfl
  have d10 : daysInMonth y 10 = 31 := rfl
  have d11 : daysInMonth y 11 = 30 := rfl
  have d12 : daysInMonth y 12 = 31 := rfl
  cases h : isLeap y
  · have d2 : daysInMonth y 2 = 28 := by simp [daysInMonth, h]
    simp only [daysInYear, h, Bool.false_eq_true, if_false]
    omega
  · have d2 : daysInMonth y 2 = 29 := by simp [daysInMonth, h]
    simp only [daysInYear, h, if_true]
    omega

set_option maxHeartbeats 1000000 in
theorem daysBeforeYear_succ (y : Nat) (hy : 1 ≤ y) :
    daysBeforeYear (y + 1) = daysBeforeYear y + daysInYear y := by
  have hiff : isLeap y = true ↔ ((y % 4 = 0 ∧ ¬y % 100 = 0) ∨ y % 400 = 0) := by
    unfold isLeap
    simp
  unfold daysBeforeYear daysInYear
  simp only [Nat.add_sub_cancel]
  by_cases hL : ((y % 4 = 0 ∧ ¬y % 100 = 0) ∨ y % 400 = 0)
  · rw [if_pos (hiff.2 hL)]
    omega
  · rw [if_neg (fun hc => hL (hiff.1 hc))]
    omega

theorem daysBeforeYear_le (y y' : Nat) (hy : 1 ≤ y) (h : y < y') :
    daysBeforeYear y + daysInYear y ≤ daysBeforeYear y' := by
  induction y' with
  | zero => omega
  | succ k ih =>
      rcases Nat.lt_or_ge y k with hk | hk
      · have h1 := ih hk
        have h2 := daysBeforeYear_succ k (by omega)
        omega
      · have hyk : y = k := by omega
        subst hyk
        rw [daysBeforeYear_succ y hy]

theorem dbm_add_le (y m d : Nat) (hm1 : 1 ≤ m) (hm : m ≤ 12)
    (hd : d ≤ daysInMonth y m) :
    daysBeforeMonth y m + d ≤ daysInYear y := by
  have h1 : daysBeforeMonth y m + d ≤ daysBeforeMonth y (m + 1) := by
    rw [daysBeforeMonth_succ y m hm1]
    omega
  have h2 : daysBeforeMonth y (m + 1) ≤ daysBeforeMonth y 13 :=
    daysBeforeMonth_mono y (by omega)
  rw [daysBeforeMonth_13] at h2
  omega

theorem toOrd_le_month (y m d m' d' : Nat) (hm1 : 1 ≤ m) (hmm : m < m')
    (hd : d ≤ daysInMonth y m) (hd1 : 1 ≤ d') :
    toOrd y m d ≤ toOrd y m' d' := by
  unfold toOrd
  have h1 : daysBeforeMonth y m + d ≤ daysBeforeMonth y (m + 1) := by
    rw [daysBeforeMonth_succ y m hm1]
    omega
  have h2 : daysBeforeMonth y (m + 1) ≤ daysBeforeMonth y m' :=
    daysBeforeMonth_mono y (by omega)
  omega

theorem toOrd_le_year (y m d y' m' d' : Nat) (hy1 : 1 ≤ y) (hyy : y < y')
    (hm1 : 1 ≤ m) (hm12 : m ≤ 12) (hd : d ≤ daysInMonth y m) (hd1 : 1 ≤ d') :
    toOrd y m d ≤ toOrd y' m' d' := by
  unfold toOrd
  have h1 : daysBeforeMonth y m + d ≤ daysInYear y := dbm_add_le y m d hm1 hm12 hd
  have h2 : daysBeforeYear y + daysInYear y ≤ daysBeforeYear y' :=
    daysBeforeYear_le y y' hy1 hyy
  omega

/-! ### Sortedness of the good trace -/

theorem insertByKey_perm {α : Type} (p : Nat × α) (l : List (Nat × α)) :
    (insertByKey p l).Perm (p :: l) := by
  induction l with
  | nil => exact List.Perm.refl _
  | cons q qs ih =>
      unfold insertByKey
      by_cases hle : p.1 ≤ q.1
      · rw [if_pos hle]
      · rw [if_neg hle]
        exact (ih.cons q).trans (List.Perm.swap p q qs)

theorem sortByKey_perm {α : Type} (l : List (Nat × α)) :
    (sortByKey l).Perm l := by
  induction l with
  | nil => exact List.Perm.refl _
  | cons p ps ih =>
      show (insertByKey p (sortByKey ps)).Perm (p :: ps)
      exact (insertByKey_perm p (sortByKey ps)).trans (ih.cons p)

theorem insertByKey_sorted {α : Type} (p : Nat × α) (l : List (Nat × α))
    (h : l.Pairwise (fun a b => a.1 ≤ b.1)) :
    (insertByKey p l).Pairwise (fun a b => a.1 ≤ b.1) := by
  induction l with
  | nil => simp [insertByKey]
  | cons q qs ih =>
      rw [List.pairwise_cons] at h
      obtain ⟨hq, hqs⟩ := h
      unfold insertByKey
      by_cases hle : p.1 ≤ q.1
      · rw [if_pos hle]
        constructor
        · intro r hr
          rcases List.mem_cons.1 hr with rfl | hr
          · exact hle
          · exact Nat.le_trans hle (hq r hr)
        · exact List.Pairwise.cons hq hqs
      · rw [if_neg hle]
        constructor
        · intro r hr
          rw [mem_insertByKey] at hr
          rcases hr with rfl | hr
          · omega
          · exact hq r hr
        · exact ih hqs

theorem sortByKey_sorted {α : Type} (l : List (Nat × α)) :
    (sortByKey l).Pairwise (fun a b => a.1 ≤ b.1) := by
  induction l with
  | nil => simp [sortByKey]
  | cons p ps ih => exact insertByKey_sorted p _ ih

theorem sortByKey_strict {α : Type} (l : List (Nat × α))
    (hnd : (l.map Prod.fst).Nodup) :
    (sortByKey l).Pairwise (fun a b => a.1 < b.1) := by
  have hle := sortByKey_sorted l
  have hnd2 : ((sortByKey l).map Prod.fst).Nodup :=
    (((sortByKey_perm l).map Prod.fst).nodup_iff).2 hnd
  have hne : (sortByKey l).Pairwise (fun a b => a.1 ≠ b.1) := by
    rw [List.Nodup, List.pairwise_map] at hnd2
    exact hnd2
  exact (hle.and hne).imp (fun h => Nat.lt_of_le_of_ne h.1 h.2)

theorem mem_goodDays {y m : Nat} {mgC : MonthGroup} {ds : List Nat} {x : YMD}
    (h : x ∈ goodDays y m mgC ds) :
    ∃ d ∈ ds, x = ⟨y, m, d⟩ := by
  unfold goodDays at h
  rw [List.mem_filterMap] at h
  obtain ⟨d, hd, hx⟩ := h
  refine ⟨d, hd, ?_⟩
  cases hk : lookupNat mgC d with
  | some dg =>
      rw [hk] at hx
      have hx2 : (if (dg.hasTable && dg.tableGood) = true
          then some (⟨y, m, d⟩ : YMD) else none) = some x := hx
      by_cases hg : (dg.hasTable && dg.tableGood) = true
      · rw [if_pos hg] at hx2
        exact (Option.some.inj hx2).symm
      · rw [if_neg hg] at hx2
        cases hx2
  | none =>
      rw [hk] at hx
      cases hx

theorem mem_goodMonths {y : Nat} {ms : List (Nat × MonthGroup)} {x : YMD}
    (h : x ∈ goodMonths y ms) :
    ∃ pm ∈ ms, ∃ d ∈ valid_dates y pm.1, x = ⟨y, pm.1, d⟩ := by
  unfold goodMonths at h
  rw [List.mem_flatten] at h
  obtain ⟨l, hl, hx⟩ := h
  rw [List.mem_map] at hl
  obtain ⟨pm, hpm, rfl⟩ := hl
  obtain ⟨d, hd, rfl⟩ := mem_goodDays hx
  exact ⟨pm, hpm, d, hd, rfl⟩

theorem valid_dates_sorted (y m : Nat) :
    (valid_dates y m).Pairwise (fun a b => a < b) := by
  unfold valid_dates
  apply List.Pairwise.sublist (List.filter_sublist _)
  rw [List.pairwise_map]
  exact (List.pairwise_lt_range _).imp (fun h => by omega)

theorem goodDays_sorted (y m : Nat) (mgC : MonthGroup) :
    (goodDays y m mgC (valid_dates y m)).Pairwise (fun a b => a.ord ≤ b.ord) := by
  unfold goodDays
  rw [List.pairwise_filterMap]
  apply (valid_dates_sorted y m).imp
  intro a b hab x hx x' hx'
  have hxa : x = ⟨y, m, a⟩ := by
    have hx2 := hx
    cases hk : lookupNat mgC a with
    | some dg =>
        rw [hk] at hx2
        have hx3 : (if (dg.hasTable && dg.tableGood) = true
            then some (⟨y, m, a⟩ : YMD) else none) = some x := hx2
        by_cases hg : (dg.hasTable && dg.tableGood) = true
        · rw [if_pos hg] at hx3
          exact (Option.some.inj hx3).symm
        · rw [if_neg hg] at hx3
          cases hx3
    | none =>
        rw [hk] at hx2
        cases hx2
  have hxb : x' = ⟨y, m, b⟩ := by
    have hx2 := hx'
    cases hk : lookupNat mgC b with
    | some dg =>
        rw [hk] at hx2
        have hx3 : (if (dg.hasTable && dg.tableGood) = true
            then some (⟨y, m, b⟩ : YMD) else none) = some x' := hx2
        by_cases hg : (dg.hasTable && dg.tableGood) = true
        · rw [if_pos hg] at hx3
          exact (Option.some.inj hx3).symm
        · rw [if_neg hg] at hx3
          cases hx3
    | none =>
        rw [hk] at hx2
        cases hx2
  subst hxa
  subst hxb
  show toOrd y m a ≤ toOrd y m b
  unfold toOrd
  omega

/-- Well-formed month list: distinct keys, all in 1..12 (as written by the
store layer from real timestamps). -/
def WFMonths (ms : List (Nat × MonthGroup)) : Prop :=
  (ms.map Prod.fst).Nodup ∧ ∀ pm ∈ ms, 1 ≤ pm.1 ∧ pm.1 ≤ 12

/-- Well-formed instrument data: distinct year keys, years ≥ 1, and
well-formed month lists. -/
def WFInstr (idata : InstrData) : Prop :=
  (idata.map Prod.fst).Nodup ∧ ∀ py ∈ idata, 1 ≤ py.1 ∧ WFMonths py.2

theorem goodMonths_sorted (y : Nat) (ms : List (Nat × MonthGroup))
    (hsor : ms.Pairwise (fun a b => a.1 < b.1))
    (hwf : ∀ pm ∈ ms, 1 ≤ pm.1 ∧ pm.1 ≤ 12) :
    (goodMonths y ms).Pairwise (fun a b => a.ord ≤ b.ord) := by
  unfold goodMonths
  rw [List.pairwise_flatten]
  constructor
  · intro l hl
    rw [List.mem_map] at hl
    obtain ⟨pm, hpm, rfl⟩ := hl
    exact goodDays_sorted y pm.1 pm.2
  · rw [List.pairwise_map]
    refine hsor.imp_of_mem ?_
    intro pm pm' hpm hpm' hlt x hx x' hx'
    obtain ⟨d, hd, rfl⟩ := mem_goodDays hx
    obtain ⟨d', hd', rfl⟩ := mem_goodDays hx'
    obtain ⟨hm1, _⟩ := hwf pm hpm
    have hdb := valid_dates_bounds hd
    have hdb' := valid_dates_bounds hd'
    show toOrd y pm.1 d ≤ toOrd y pm'.1 d'
    exact toOrd_le_month y pm.1 d pm'.1 d' hm1 hlt hdb.2 hdb'.1

theorem goodYears_sorted (ys : List (Nat × YearGroup))
    (hsor : ys.Pairwise (fun a b => a.1 < b.1))
    (hwf : ∀ py ∈ ys, 1 ≤ py.1 ∧ WFMonths py.2) :
    (goodYears ys).Pairwise (fun a b => a.ord ≤ b.ord) := by
  unfold goodYears
  rw [List.pairwise_flatten]
  constructor
  · intro l hl
    rw [List.mem_map] at hl
    obtain ⟨py, hpy, rfl⟩ := hl
    obtain ⟨_, hnd, hbn⟩ := hwf py hpy
    apply goodMonths_sorted
    · exact sortByKey_strict py.2 hnd
    · intro pm hpm
      exact hbn pm ((mem_sortByKey py.2 pm).1 hpm)
  · rw [List.pairwise_map]
    refine hsor.imp_of_mem ?_
    intro py py' hpy hpy' hlt x hx x' hx'
    obtain ⟨pm, hpm, d, hd, rfl⟩ := mem_goodMonths hx
    obtain ⟨pm', hpm', d', hd', rfl⟩ := mem_goodMonths hx'
    obtain ⟨hy1, _, hbn⟩ := hwf py hpy
    obtain ⟨hm1, hm12⟩ := hbn pm ((mem_sortByKey py.2 pm).1 hpm)
    have hdb := valid_dates_bounds hd
    have hdb' := valid_dates_bounds hd'
    show toOrd py.1 pm.1 d ≤ toOrd py'.1 pm'.1 d'
    exact toOrd_le_year py.1 pm.1 d py'.1 pm'.1 d' hy1 hlt hm1 hm12 hdb.2 hdb'.1

theorem lastOr_some (l : List YMD) (o : Option YMD) (lg : YMD)
    (h : lastOr l o = some lg) : some lg = o ∨ lg ∈ l := by
  induction l generalizing o with
  | nil => exact Or.inl h.symm
  | cons x xs ih =>
      rcases ih (some x) h with h1 | h1
      · cases Option.some.inj h1
        exact Or.inr (by simp)
      · exact Or.inr (by simp [h1])

theorem sorted_last_max (l : List YMD) :
    ∀ (o : Option YMD) (lg : YMD),
      l.Pairwise (fun a b => a.ord ≤ b.ord) → lastOr l o = some lg →
      ∀ x ∈ l, x.ord ≤ lg.ord := by
  induction l with
  | nil =>
      intro o lg _ _ x hx
      simp at hx
  | cons a as ih =>
      intro o lg hs h x hx
      rw [List.pairwise_cons] at hs
      obtain ⟨ha, has⟩ := hs
      rcases List.mem_cons.1 hx with rfl | hx
      · rcases lastOr_some as (some x) lg h with h1 | h1
        · cases Option.some.inj h1
          exact Nat.le_refl _
        · exact ha lg h1
      · exact ih (some a) lg has h x hx

/-- C6 (Monotonic last-good-date): for a well-formed store entry
(distinct numeric year/month keys, months 1..12, years ≥ 1, as the store
writer produces), the dates at which the scan finds a present readable
partition — the good trace `goodTrace`, in encounter order — are ascending
in calendar order, so `last_good_date` never decreases over the pass; the
pass ends with `last_good_date` equal to the last entry of that trace
(`none` when no readable partition was seen), and that final value bounds
every good date from above: it is the latest date found present and
readable. -/
theorem monotonic_last_good_date (instr : String) (s e : Option Nat)
    (idata : InstrData) (hwf : WFInstr idata) :
    (goodTrace idata).Pairwise (fun a b => a.ord ≤ b.ord) ∧
    (scanInstrument instr s e idata ⟨none, [], []⟩).lastGood
      = lastOr (goodTrace idata) none ∧
    (∀ x ∈ goodTrace idata, ∀ lg, lastOr (goodTrace idata) none = some lg →
      x.ord ≤ lg.ord) := by
  obtain ⟨hnd, hy⟩ := hwf
  have hsorted : (goodTrace idata).Pairwise (fun a b => a.ord ≤ b.ord) := by
    unfold goodTrace
    apply goodYears_sorted
    · exact sortByKey_strict idata hnd
    · intro py hpy
      exact hy py ((mem_sortByKey idata py).1 hpy)
  refine ⟨hsorted, ?_, ?_⟩
  · exact scanYears_lastGood_eq instr s e (sortByKey idata) _
  · intro x hx lg hlg
    exact sorted_last_max _ none lg hsorted hlg x hx

/-- The instrument data of the C6 witness: January 2024 with good days
2 and 5. -/
def exIData : InstrData :=
  [(2024, [(1, [(2, ⟨true, true⟩), (5, ⟨true, true⟩)])])]

/-- C6 witness: the monotonicity theorem applied to a concrete
well-formed one-instrument store. -/
theorem monotonic_last_good_date_witness :
    (goodTrace exIData).Pairwise (fun a b => a.ord ≤ b.ord) ∧
    (scanInstrument "EURUSD" none none exIData ⟨none, [], []⟩).lastGood
      = lastOr (goodTrace exIData) none ∧
    (∀ x ∈ goodTrace exIData, ∀ lg, lastOr (goodTrace exIData) none = some lg →
      x.ord ≤ lg.ord) :=
  monotonic_last_good_date "EURUSD" none none exIData
    (by unfold WFInstr WFMonths exIData; decide)

/-! ## IncrementalUpdater: `batch_update.run_fetch` and
`store_tick_data.store_tick_data`

Dates are handled as proleptic Gregorian ordinals (one day per unit):
`start_date + timedelta(days=1)` is `+ 1` on ordinals, and comparison of
the midnight datetimes is comparison of ordinals. -/

/-- Year search for the inverse calendar map, with fuel. -/
def findYear : Nat → Nat → Nat → Nat × Nat
  | 0, y, r => (y, r)
  | fuel + 1, y, r =>
      if r > daysInYear y then findYear fuel (y + 1) (r - daysInYear y) else (y, r)

/-- Month search for the inverse calendar map, with fuel. -/
def findMonth : Nat → Nat → Nat → Nat → Nat × Nat
  | 0, _, m, r => (m, r)
  | fuel + 1, y, m, r =>
      if r > daysInMonth y m then findMonth fuel y (m + 1) (r - daysInMonth y m) else (m, r)

/-- Calendar date of a proleptic Gregorian ordinal (inverse of `toOrd`). -/
def ordToYMD (o : Nat) : YMD :=
  let yr := findYear o 1 o
  let md := findMonth 12 yr.1 1 yr.2
  ⟨yr.1, md.1, md.2⟩

/-- Python `date(1970, 1, 1).toordinal()`. -/
def epochOrd : Nat := toOrd 1970 1 1

/-- Calendar day (as ordinal) of a millisecond UTC timestamp, as
`pd.to_datetime(ts, unit='ms').dt.{year,month,day}` decomposes it. -/
def tsDayOrd (ms : Nat) : Nat := ms / 86400000 + epochOrd

/-- The `(year, month, day)` of one row's timestamp. -/
def tsToYMD (ms : Nat) : YMD := ordToYMD (tsDayOrd ms)

/-- Two-digit zero padding (`{:02}`). -/
def pad2 (n : Nat) : String :=
  if n < 10 then "0" ++ toString n else toString n

/-- HDF5 key `/ASSET/yYYYY/mMM/dDD` as `store_tick_data` builds it. -/
def keyOf (asset : String) (x : YMD) : String :=
  "/" ++ asset ++ "/y" ++ toString x.y ++ "/m" ++ pad2 x.m ++ "/d" ++ pad2 x.d

/-- Insertion step for sorting group keys by calendar order. -/
def insertOrd (x : YMD) : List YMD → List YMD
  | [] => [x]
  | z :: zs => if x.ord ≤ z.ord then x :: z :: zs else z :: insertOrd x zs

/-- Sort distinct day keys ascending (pandas `groupby` sorts group keys). -/
def sortYMD (l : List YMD) : List YMD := l.foldr insertOrd []

/-- Grouping `df.groupby(['year', 'month', 'day'])`: the distinct day keys of the
rows, ascending, each with that day's rows in original order. -/
def groupByDay (rows : Table) : List (YMD × Table) :=
  (sortYMD ((rows.map (fun r => tsToYMD r.timestamp)).eraseDups)).map
    (fun day => (day, rows.filter (fun r => tsToYMD r.timestamp == day)))

/-- The append-policy write of `store_tick_data`: if the key exists,
concatenate the existing table with the new rows and `put` the result,
else `put` the new rows. -/
def storeAppend (s : Store) (k : String) (t : Table) : Store :=
  match storeGet s k with
  | some existing => storePut s k (existing ++ t)
  | none => storePut s k t

/-- Storing `store_tick_data.store_tick_data(df, asset, save_dir)`: skip empty
frames, then write each day group with append policy. -/
def store_tick_data (asset : String) (rows : Table) (s : Store) : Store :=
  if rows.isEmpty then s
  else (groupByDay rows).foldl (fun st g => storeAppend st (keyOf asset g.1) g.2) s

/-- The `while start_date < end_date` loop body of `run_fetch`, with fuel
equal to the number of remaining days: fetch the day, store non-empty
results with append policy, advance one day; also record each fetched
day's ordinal in order. -/
def fetchLoop (fetchD : Nat → Table) (asset : String) :
    Nat → Nat → Nat → Store → Store × List Nat
  | 0, _, _, st => (st, [])
  | fuel + 1, start, e, st =>
      if start < e then
        let data := fetchD start
        let st2 := if data.isEmpty then st else store_tick_data asset data st
        let r := fetchLoop fetchD asset fuel (start + 1) e st2
        (r.1, start :: r.2)
      else (st, [])

/-- Updater `batch_update.run_fetch(symbol, last_date_str)` against end ordinal
`endO`: start at `lastO + 1`; if `start >= end` return untouched, else run
the fetch loop. `fetchD` is the opaque `fetch_tick_data_for_day`. -/
def run_fetch (fetchD : Nat → Table) (asset : String) (lastO endO : Nat)
    (st : Store) : Store × List Nat :=
  let start := lastO + 1
  if endO ≤ start then (st, [])
  else fetchLoop fetchD asset (endO - start) start endO st

/-! ### C4: updater date iteration -/

theorem fetchLoop_dates (fetchD : Nat → Table) (asset : String)
    (fuel : Nat) :
    ∀ (start e : Nat) (st : Store), e - start ≤ fuel →
      (fetchLoop fetchD asset fuel start e st).2 = List.range' start (e - start) := by
  induction fuel with
  | zero =>
      intro start e st h
      have he : e - start = 0 := by omega
      rw [he]
      rfl
  | succ k ih =>
      intro start e st h
      by_cases hlt : start < e
      · have hsub : e - start = (e - (start + 1)) + 1 := by omega
        show (if start < e then _ else _ : Store × List Nat).2 = _
        rw [if_pos hlt, hsub, List.range'_succ]
        simp only
        rw [ih (start + 1) e _ (by omega)]
      · have he : e - start = 0 := by omega
        show (if start < e then _ else _ : Store × List Nat).2 = _
        rw [if_neg hlt, he]
        rfl

/-- C4 counterexample: `run_fetch` performs no weekday skipping. From
`last_good_date` Friday 2024-01-05 to end date 2024-01-08, it fetches
2024-01-06 — a Saturday (Python `weekday() == 5`), the non-trading weekday
the Scanner excludes — contradicting the claim that such dates are
skipped. -/
theorem run_fetch_no_weekday_skip_counterexample :
    pyWeekday 2024 1 6 = 5 ∧
    toOrd 2024 1 6
      ∈ (run_fetch (fun _ => []) "EURUSD" (toOrd 2024 1 5) (toOrd 2024 1 8) []).2 := by
  constructor
  · decide
  · decide

/-- C4 amended (updater date iteration, no weekday skipping): for every
instrument, `last_good_date` and `end_date`, the updater fetches exactly
the calendar dates `d` with `last_good_date + 1 ≤ d < end_date`, in
ascending order, with no weekday excluded; when `last_good_date + 1 >=
end_date` it performs no fetch or store at all; each fetched day with data
is stored into the raw store with append policy — appending to the
existing table at a key, or creating it. -/
theorem run_fetch_dates (fetchD : Nat → Table) (asset : String)
    (lastO endO : Nat) (st : Store) :
    (run_fetch fetchD asset lastO endO st).2
      = List.range' (lastO + 1) (endO - (lastO + 1)) ∧
    (∀ d, d ∈ (run_fetch fetchD asset lastO endO st).2 ↔
      lastO + 1 ≤ d ∧ d < endO) ∧
    (run_fetch fetchD asset lastO endO st).2.Pairwise (fun a b => a < b) ∧
    (lastO + 1 ≥ endO → run_fetch fetchD asset lastO endO st = (st, [])) ∧
    (∀ (s2 : Store) (k : String) (t : Table),
      storeGet (storeAppend s2 k t) k = some ((storeGet s2 k).getD [] ++ t)) := by
  have hmain : (run_fetch fetchD asset lastO endO st).2
      = List.range' (lastO + 1) (endO - (lastO + 1)) := by
    unfold run_fetch
    by_cases hle : endO ≤ lastO + 1
    · rw [if_pos hle]
      have : endO - (lastO + 1) = 0 := by omega
      rw [this]
      rfl
    · rw [if_neg hle]
      exact fetchLoop_dates fetchD asset _ _ _ _ (Nat.le_refl _)
  refine ⟨hmain, ?_, ?_, ?_, ?_⟩
  · intro d
    rw [hmain, List.mem_range']
    constructor
    · rintro ⟨i, hi, rfl⟩
      omega
    · intro hd
      exact ⟨d - (lastO + 1), by omega, by omega⟩
  · rw [hmain]
    exact List.pairwise_lt_range' _ _ _ (by omega)
  · intro hge
    unfold run_fetch
    rw [if_pos (by omega)]
  · intro s2 k t
    unfold storeAppend
    cases hg : storeGet s2 k with
    | some existing => simp [storeGet_storePut_self, hg]
    | none => simp [storeGet_storePut_self, hg]

/-- C4 witness: the no-op branch at `last_good_date = 10`,
`end_date = 5`. -/
theorem run_fetch_dates_witness :
    run_fetch (fun _ => []) "EURUSD" 10 5 [] = ([], []) :=
  (run_fetch_dates (fun _ => []) "EURUSD" 10 5 []).2.2.2.1 (by omega)

end MT5
